import Mathlib

/-!
Verification of the extractive-summarization notebook
(`Task 2 Text Summarization.ipynb`).

The embedding below models the notebook's `extractive_summary` function,
its `preprocess_df` cleaning function, and the ROUGE-style overlap
evaluator that the notebook invokes.

A document is modelled at the output level of the spaCy segmenter: an
ordered list of sentences, each carrying its raw text and its token list,
each token carrying its text and the `is_stop` / `is_punct` flags.  A
sentence is identified in the orderings below by its 0-based index, which
is strictly monotone in the character offset spaCy spans compare by, so
Python tuple comparison on `(score, span)` is faithfully modelled by
lexicographic comparison on `(score, index)`.
-/

namespace Summarize

/-- Token as produced by the segmenter: surface text plus stopword and
punctuation flags. -/
structure Token where
  text : String
  is_stop : Bool
  is_punct : Bool
deriving DecidableEq, Repr

/-- Sentence: raw text (what `str(span)` returns) and its token list. -/
structure Sentence where
  text : String
  tokens : List Token
deriving DecidableEq, Repr

/-- Document: ordered list of sentences (spaCy `doc.sents`); the tokens of
the document are the concatenation of the sentences' tokens. -/
abbrev Document := List Sentence

/-- Tokens of the whole document, in order (`for token in doc`). -/
def docTokens (doc : Document) : List Token :=
  doc.flatMap (fun s => s.tokens)

/-- Case-folding of Python's `str.lower()`, character by character. -/
def lowerString (s : String) : String :=
  ⟨s.data.map Char.toLower⟩

/-- Case-folded informative words of a token list:
`[token.text.lower() for token in ts if not token.is_stop and not token.is_punct]`. -/
def informativeWords (ts : List Token) : List String :=
  (ts.filter (fun t => !t.is_stop && !t.is_punct)).map (fun t => lowerString t.text)

/-- Frequency table `word_freq = Counter(words)` over the informative words
of the whole document; `word_freq.get(w, 0)` is total, returning 0 for
absent keys, so the table is modelled as a total function. -/
def word_freq (doc : Document) (w : String) : Nat :=
  (informativeWords (docTokens doc)).count w

/-- Sentence score: `sum(word_freq.get(w, 0) for w in sent_words)`. -/
def sentScore (doc : Document) (s : Sentence) : Nat :=
  ((informativeWords s.tokens).map (fun w => word_freq doc w)).sum

/-- Scored sentences, original order: the Python list `sent_scores` of
`(score, sent)` tuples, with each sentence represented by its index. -/
def sent_scores (doc : Document) : List (Nat × Nat) :=
  doc.enum.map (fun p => (sentScore doc p.2, p.1))

/-- Ordering used by `sorted(sent_scores, reverse=True)`: `a` precedes `b`
iff the tuple `a` is lexicographically ≥ the tuple `b` (descending score;
on equal scores, descending sentence index, because spaCy spans compare by
document position). -/
def revLe (a b : Nat × Nat) : Prop :=
  b.1 < a.1 ∨ (b.1 = a.1 ∧ b.2 ≤ a.2)

instance : DecidableRel revLe := fun a b => by
  unfold revLe; exact inferInstance

instance : IsTotal (Nat × Nat) revLe := by
  constructor
  intro a b
  unfold revLe
  omega

instance : IsTrans (Nat × Nat) revLe := by
  constructor
  intro a b c hab hbc
  unfold revLe at *
  omega

instance : IsAntisymm (Nat × Nat) revLe := by
  constructor
  intro a b hab hba
  unfold revLe at *
  have : a.1 = b.1 ∧ a.2 = b.2 := by omega
  exact Prod.ext this.1 this.2

/-- Ordering used by `sorted(top_sents, key=lambda x: sentences.index(x[1]))`:
ascending sentence index (the score component is a tie-break that never
fires, since indices in the sorted list are pairwise distinct; it makes the
relation antisymmetric). -/
def idxLe (a b : Nat × Nat) : Prop :=
  a.2 < b.2 ∨ (a.2 = b.2 ∧ a.1 ≤ b.1)

instance : DecidableRel idxLe := fun a b => by
  unfold idxLe; exact inferInstance

instance : IsTotal (Nat × Nat) idxLe := by
  constructor
  intro a b
  unfold idxLe
  omega

instance : IsTrans (Nat × Nat) idxLe := by
  constructor
  intro a b c hab hbc
  unfold idxLe at *
  omega

instance : IsAntisymm (Nat × Nat) idxLe := by
  constructor
  intro a b hab hba
  unfold idxLe at *
  have : a.1 = b.1 ∧ a.2 = b.2 := by omega
  exact Prod.ext this.1 this.2

/-- Python list slicing `l[:n]` for an `int` `n` of either sign: a
non-negative `n` takes the first `n` elements; a negative `n` drops the
last `|n|` elements (empty result when `|n| ≥ len(l)`). -/
def pySlice {α : Type} (n : Int) (l : List α) : List α :=
  if 0 ≤ n then l.take n.toNat else l.take (l.length - (-n).toNat)

/-- The list `sorted(sent_scores, reverse=True)`. -/
def sortedScores (doc : Document) : List (Nat × Nat) :=
  List.insertionSort revLe (sent_scores doc)

/-- The list `sorted(sent_scores, reverse=True)[:num_sentences]`. -/
def topSents (doc : Document) (num_sentences : Int) : List (Nat × Nat) :=
  pySlice num_sentences (sortedScores doc)

/-- The re-sorted selection
`sorted(top_sents, key=lambda x: sentences.index(x[1]))`. -/
def selectTopK (doc : Document) (num_sentences : Int) : List (Nat × Nat) :=
  List.insertionSort idxLe (topSents doc num_sentences)

/-- Text of the sentence at index `i` (`str(s[1])`). -/
def sentText (doc : Document) (i : Nat) : String :=
  ((doc[i]?).map (fun s => s.text)).getD ""

/-- The notebook's `extractive_summary(article, num_sentences)`, from the
segmented document onward:
`' '.join([str(s[1]) for s in top_sents])` after both sorts. -/
def extractive_summary (doc : Document) (num_sentences : Int) : String :=
  String.intercalate " " ((selectTopK doc num_sentences).map (fun p => sentText doc p.2))

/-- Modelled from the spec: the Overlap Evaluator (`rouge_scorer.RougeScorer`)
is a third-party library whose code is not in the repository; its scores are
modelled per §4.4: a triple of precision, recall and F-measure, as exact
rationals. -/
structure Score where
  precision : ℚ
  recallScore : ℚ
  fmeasure : ℚ
deriving DecidableEq, Repr

/-- Modelled from the spec: `F = 2·P·R/(P+R)`, defined as 0 when `P+R = 0`
(the library guards `if precision + recall > 0`). -/
def fmeasureOf (p r : ℚ) : ℚ :=
  if 0 < p + r then 2 * p * r / (p + r) else 0

/-- Modelled from the spec: the contiguous `n`-grams of a token sequence
(the library builds a Counter over `tuple(tokens[i:i+n])` for
`i in range(len(tokens) - n + 1)`). -/
def ngrams (n : Nat) (l : List String) : List (List String) :=
  (List.range (l.length + 1 - n)).map (fun i => (l.drop i).take n)

/-- Modelled from the spec: n-gram overlap scoring. The library iterates
over the distinct n-grams of the reference (`target`) multiset, summing
`min(count in reference, count in candidate)`, then divides by
`max(count, 1)` so that empty sides give 0 rather than an error. -/
def scoreNgrams (target candidate : List (List String)) : Score :=
  let overlap : Nat := (target.dedup.map (fun g => min (target.count g) (candidate.count g))).sum
  let p : ℚ := (overlap : ℚ) / (max candidate.length 1 : Nat)
  let r : ℚ := (overlap : ℚ) / (max target.length 1 : Nat)
  ⟨p, r, fmeasureOf p r⟩

/-- Modelled from the spec: length of the longest common subsequence of two
token sequences, by the standard dynamic-programming recurrence. -/
def lcsLen : List String → List String → Nat
  | [], _ => 0
  | _ :: _, [] => 0
  | a :: as, b :: bs =>
      if a = b then 1 + lcsLen as bs
      else max (lcsLen (a :: as) bs) (lcsLen as (b :: bs))
termination_by l₁ l₂ => l₁.length + l₂.length

/-- Modelled from the spec: LCS-based scoring:
`precision = lcsLength/|candidate|`, `recall = lcsLength/|reference|`,
F-measure as for n-grams, with empty sides giving 0. -/
def scoreLcs (target candidate : List String) : Score :=
  let l : Nat := lcsLen target candidate
  let p : ℚ := (l : ℚ) / (max candidate.length 1 : Nat)
  let r : ℚ := (l : ℚ) / (max target.length 1 : Nat)
  ⟨p, r, fmeasureOf p r⟩

/-- Dataset row: `id`, `article`, `highlights`; a missing (NaN) field is
`none`. -/
structure Row where
  id : String
  article : Option String
  highlights : Option String
deriving DecidableEq, Repr

/-- Both text fields present (`dropna(subset=['article', 'highlights'])`
keeps the row). -/
def hasFields (r : Row) : Bool :=
  r.article.isSome && r.highlights.isSome

/-- Whitespace-stripping of Python's `str.strip()`: drop whitespace from
both ends of the character sequence. -/
def stripString (s : String) : String :=
  ⟨((s.data.dropWhile Char.isWhitespace).reverse.dropWhile Char.isWhitespace).reverse⟩

/-- Whitespace-stripping of both text fields (`.str.strip()`). -/
def trimRow (r : Row) : Row :=
  { r with article := r.article.map stripString, highlights := r.highlights.map stripString }

/-- Both text fields non-empty (`(df['article'] != '') & (df['highlights'] != '')`). -/
def nonEmptyRow (r : Row) : Bool :=
  r.article != some "" && r.highlights != some ""

/-- Duplicate key used by `drop_duplicates(subset=['article', 'highlights'])`. -/
def rowKey (r : Row) : Option String × Option String :=
  (r.article, r.highlights)

/-- Keep-first deduplication by key, accumulating the keys already seen
(pandas `drop_duplicates` with the default `keep='first'`). -/
def dedupKeepFirst {α β : Type} [DecidableEq β] (key : α → β) :
    List β → List α → List α
  | _, [] => []
  | seen, r :: rs =>
      if key r ∈ seen then dedupKeepFirst key seen rs
      else r :: dedupKeepFirst key (key r :: seen) rs

/-- The valid trimmed rows, before deduplication: drop rows with a missing
field, strip whitespace, drop rows with an empty field. -/
def validRows (rows : List Row) : List Row :=
  ((rows.filter hasFields).map trimRow).filter nonEmptyRow

/-- The notebook's `preprocess_df`: drop rows with missing fields, strip
whitespace, drop rows emptied by stripping, then drop duplicate
`(article, highlights)` pairs keeping the first occurrence.
(`reset_index(drop=True)` only renumbers rows and is identity here.) -/
def preprocess_df (rows : List Row) : List Row :=
  dedupKeepFirst rowKey [] (validRows rows)

/-- Spec-side formulation of the overlap count, following the spec's words:
`overlapCount = Σ over distinct n-grams of min(countInReference, countInCandidate)`,
where "distinct n-grams" ranges over the n-grams of either side. -/
def specOverlapCount (target candidate : List (List String)) : Nat :=
  ((target ++ candidate).dedup.map (fun g => min (target.count g) (candidate.count g))).sum

/-- Spec-side formulation of the sentence score, following the spec's words:
for each token of the sentence, add `frequencyTable[token]` for informative
tokens only (stopwords and punctuation contribute 0). -/
def specSentenceScore (doc : Document) (s : Sentence) : Nat :=
  (s.tokens.map (fun t =>
    if !t.is_stop && !t.is_punct then word_freq doc (lowerString t.text) else 0)).sum

/-- Concrete one-word token. -/
def tokA : Token := ⟨"a", false, false⟩

/-- Concrete one-word token. -/
def tokB : Token := ⟨"b", false, false⟩

/-- Concrete two-sentence document whose sentences score equally (each word
occurs once in the whole document), exposing the tie-break. -/
def doc2 : Document := [⟨"a", [tokA]⟩, ⟨"b", [tokB]⟩]

/-- Concrete row whose article needs stripping. -/
def row0 : Row := ⟨"0", some " x ", some "y"⟩

/-- Concrete row with a missing article. -/
def row1 : Row := ⟨"1", none, some "y"⟩

/-- Concrete row duplicating `row0` after stripping. -/
def row2 : Row := ⟨"2", some "x", some "y"⟩

/-- Concrete row whose article is empty after stripping. -/
def row3 : Row := ⟨"3", some "  ", some "y"⟩

/-- Concrete valid, non-duplicate row. -/
def row4 : Row := ⟨"4", some "z", some "y"⟩

/-- Concrete input table exercising every exclusion rule of `preprocess_df`. -/
def rows5 : List Row := [row0, row1, row2, row3, row4]

/-- Sentence scores are a permutation of what the sorting step returns. -/
theorem sortedScores_perm (doc : Document) : List.Perm (sortedScores doc) (sent_scores doc) :=
  List.perm_insertionSort revLe (sent_scores doc)

/-- One score per sentence. -/
theorem length_sent_scores (doc : Document) : (sent_scores doc).length = doc.length := by
  simp [sent_scores]

/-- Sorting does not change the number of scored sentences. -/
theorem length_sortedScores (doc : Document) : (sortedScores doc).length = doc.length := by
  rw [(sortedScores_perm doc).length_eq, length_sent_scores]

/-- The scored-sentence list carries strictly increasing sentence indices. -/
theorem sent_scores_idx_strict (doc : Document) :
    (sent_scores doc).Pairwise (fun a b => a.2 < b.2) := by
  have h : (doc.enum.map Prod.fst).Pairwise (· < ·) := by
    rw [List.enum_map_fst]
    exact List.pairwise_lt_range _
  rw [List.pairwise_map] at h
  unfold sent_scores
  rw [List.pairwise_map]
  exact h

/-- No two scored sentences are equal, since their indices differ. -/
theorem sent_scores_nodup (doc : Document) : (sent_scores doc).Nodup := by
  have h := sent_scores_idx_strict doc
  exact h.imp fun hab heq => absurd (heq ▸ hab) (lt_irrefl _)

/-- C1 counterexample: in `doc2` both sentences have equal score, yet the
descending sort places sentence index 1 before index 0, so `k = 1` selects
the LATER sentence ("b"), not the earlier one as the claim states. -/
theorem tie_break_counterexample :
    sentScore doc2 ⟨"a", [tokA]⟩ = sentScore doc2 ⟨"b", [tokB]⟩ ∧
    sortedScores doc2 = [(1, 1), (1, 0)] ∧
    extractive_summary doc2 1 = "b" := by
  decide

/-- C1 (amended): in the descending-by-score sort preceding the take of the
first `k` elements, equal scores are tie-broken by DESCENDING original
sentence index (the sentence appearing later in the document is preferred),
deterministically: the sorted list is a permutation of the scored sentences
ordered strictly by descending score and, on ties, descending index. -/
theorem tie_break_descending (doc : Document) :
    List.Perm (sortedScores doc) (sent_scores doc) ∧
    (sortedScores doc).Pairwise (fun a b => b.1 < a.1 ∨ (a.1 = b.1 ∧ b.2 < a.2)) := by
  refine ⟨sortedScores_perm doc, ?_⟩
  have hs : (sortedScores doc).Sorted revLe := List.sorted_insertionSort revLe _
  have hn : (sortedScores doc).Nodup :=
    ((sortedScores_perm doc).nodup_iff).mpr (sent_scores_nodup doc)
  have hc : (sortedScores doc).Pairwise (fun a b => revLe a b ∧ a ≠ b) :=
    List.Pairwise.and hs hn
  refine hc.imp ?_
  rintro ⟨a1, a2⟩ ⟨b1, b2⟩ ⟨hle, hne⟩
  unfold revLe at hle
  show b1 < a1 ∨ (a1 = b1 ∧ b2 < a2)
  simp only at hle
  rcases hle with h | ⟨h1, h2⟩
  · exact Or.inl h
  · refine Or.inr ⟨h1.symm, ?_⟩
    rcases Nat.lt_or_ge b2 a2 with h3 | h3
    · exact h3
    · exact absurd (show (a1, a2) = (b1, b2) by
        have ha : a2 = b2 := Nat.le_antisymm h3 h2
        rw [h1, ha]) hne

/-- C9: the extractive path is a pure total function of the segmented
document and `k`: identical inputs yield identical output strings. -/
theorem extractive_deterministic (d₁ d₂ : Document) (k₁ k₂ : Int)
    (h₁ : d₁ = d₂) (h₂ : k₁ = k₂) :
    extractive_summary d₁ k₁ = extractive_summary d₂ k₂ := by
  rw [h₁, h₂]

/-- Witness for `extractive_deterministic` at a concrete document and `k`. -/
theorem extractive_deterministic_witness :
    extractive_summary doc2 1 = extractive_summary doc2 1 :=
  extractive_deterministic doc2 doc2 1 1 rfl rfl

/-- Reading the sentence texts off the scored list, in its original order,
gives the document's sentence texts. -/
theorem map_sentText_sent_scores (doc : Document) :
    (sent_scores doc).map (fun p => sentText doc p.2) = doc.map (fun s => s.text) := by
  unfold sent_scores
  rw [List.map_map]
  have h1 : ((fun p : Nat × Nat => sentText doc p.2) ∘
      (fun p : Nat × Sentence => (sentScore doc p.2, p.1))) =
      ((fun i => sentText doc i) ∘ Prod.fst) := rfl
  rw [h1, ← List.map_map, List.enum_map_fst]
  apply List.ext_get
  · simp
  · intro i h₁ h₂
    simp only [List.get_eq_getElem, List.getElem_map, List.getElem_range, sentText]
    rw [List.getElem?_eq_getElem (by simpa using h₂)]
    rfl

/-- The scored list in original order is sorted for the second sort's key. -/
theorem sent_scores_sorted_idx (doc : Document) :
    (sent_scores doc).Sorted idxLe :=
  (sent_scores_idx_strict doc).imp fun hab => Or.inl hab

/-- C4: for every document and every `k` at least the sentence count, the
selection step returns every sentence in original document order, and the
summary is the join of all sentence texts in document order. -/
theorem selectTopK_all (doc : Document) (k : Int) (h : (doc.length : Int) ≤ k) :
    selectTopK doc k = sent_scores doc ∧
    extractive_summary doc k = String.intercalate " " (doc.map (fun s => s.text)) := by
  have h0 : (0 : Int) ≤ k := le_trans (Int.natCast_nonneg _) h
  have htake : topSents doc k = sortedScores doc := by
    unfold topSents pySlice
    rw [if_pos h0]
    apply List.take_of_length_le
    rw [length_sortedScores]
    omega
  have hsel : selectTopK doc k = sent_scores doc := by
    unfold selectTopK
    rw [htake]
    exact List.eq_of_perm_of_sorted
      ((List.perm_insertionSort idxLe _).trans (sortedScores_perm doc))
      (List.sorted_insertionSort idxLe _)
      (sent_scores_sorted_idx doc)
  refine ⟨hsel, ?_⟩
  unfold extractive_summary
  rw [hsel, map_sentText_sent_scores]

/-- Witness for `selectTopK_all` at a concrete document with `k = 3 > 2`. -/
theorem selectTopK_all_witness :
    ((doc2.length : Int) ≤ 3) ∧ selectTopK doc2 3 = sent_scores doc2 ∧
    extractive_summary doc2 3 = String.intercalate " " (doc2.map (fun s => s.text)) :=
  ⟨by decide, (selectTopK_all doc2 3 (by decide)).1, (selectTopK_all doc2 3 (by decide)).2⟩

/-- Slicing with a negative bound keeps all but the last `|k|` sorted
entries. -/
theorem topSents_neg (doc : Document) (k : Int) (hk : k < 0) :
    topSents doc k = (sortedScores doc).take (doc.length - (-k).toNat) := by
  unfold topSents pySlice
  rw [if_neg (by omega), length_sortedScores]

/-- C3 counterexample: a negative `k` is not rejected: scoring runs and a
summary is produced (here the higher-ranked of the two sentences). -/
theorem no_rejection_counterexample : extractive_summary doc2 (-1) = "b" := by
  decide

/-- Helper: a negative slice bound behaves like the non-negative count
`sentenceCount - |k|` (truncated at 0). -/
theorem summary_neg_slice (doc : Document) (k : Int) (hk : k < 0) :
    extractive_summary doc k =
      extractive_summary doc ((doc.length - (-k).toNat : Nat) : Int) := by
  have h1 : topSents doc ((doc.length - (-k).toNat : Nat) : Int) =
      (sortedScores doc).take (doc.length - (-k).toNat) := by
    unfold topSents pySlice
    rw [if_pos (Int.natCast_nonneg _), Int.toNat_natCast]
  unfold extractive_summary selectTopK
  rw [topSents_neg doc k hk, h1]

/-- C3 (amended): `extractive_summary` performs no boundary validation of
`k`: a negative `k` is silently coerced by Python list slicing into the
behavior of the non-negative count `sentenceCount - |k|` (truncated at 0),
i.e. scoring runs and all but the `|k|` lowest-ranked sentences are
returned. (A non-integer `k` is outside the function's `int` type and is
not representable here.) -/
theorem negative_k_coerced (doc : Document) (k : Int) (hk : k < 0) :
    extractive_summary doc k =
      extractive_summary doc ((doc.length - (-k).toNat : Nat) : Int) :=
  summary_neg_slice doc k hk

/-- Witness for `negative_k_coerced` at a concrete document with `k = -1`. -/
theorem negative_k_coerced_witness :
    ((-1 : Int) < 0) ∧
    extractive_summary doc2 (-1) =
      extractive_summary doc2 ((doc2.length - (-(-1 : Int)).toNat : Nat) : Int) :=
  ⟨by decide, negative_k_coerced doc2 (-1) (by decide)⟩

/-- C10: for `num_sentences = -n` (`n ≥ 1`), `extractive_summary` returns
without error: below the sentence count it behaves exactly like the
non-negative count `sentenceCount - n` (the `sentenceCount - n`
highest-ranked sentences, re-ordered to document order); at or above the
sentence count it returns the empty string. -/
theorem negative_k_drops_lowest (doc : Document) (n : Nat) (hpos : 0 < n) :
    (n < doc.length →
      extractive_summary doc (-(n : Int)) =
        extractive_summary doc ((doc.length - n : Nat) : Int)) ∧
    (doc.length ≤ n → extractive_summary doc (-(n : Int)) = "") := by
  have hneg : (-(n : Int)) < 0 := by omega
  constructor
  · intro _
    have h := summary_neg_slice doc (-(n : Int)) hneg
    simpa using h
  · intro hle
    have h1 : topSents doc (-(n : Int)) = [] := by
      rw [topSents_neg doc _ hneg]
      have h2 : doc.length - (-(-(n : Int))).toNat = 0 := by omega
      rw [h2, List.take_zero]
    unfold extractive_summary selectTopK
    rw [h1]
    rfl

/-- Witness for `negative_k_drops_lowest` on `doc2` with `n = 1` (drop the
lowest-ranked sentence) and `n = 2` (drop everything). -/
theorem negative_k_drops_lowest_witness :
    (0 < 1) ∧ (1 < doc2.length) ∧ (0 < 2) ∧ (doc2.length ≤ 2) ∧
    extractive_summary doc2 (-(1 : Int)) =
      extractive_summary doc2 ((doc2.length - 1 : Nat) : Int) ∧
    extractive_summary doc2 (-(2 : Int)) = "" :=
  ⟨by decide, by decide, by decide, by decide,
   (negative_k_drops_lowest doc2 1 (by decide)).1 (by decide),
   (negative_k_drops_lowest doc2 2 (by decide)).2 (by decide)⟩

/-- Informative-word extraction distributes over concatenation. -/
theorem informativeWords_append (ts us : List Token) :
    informativeWords (ts ++ us) = informativeWords ts ++ informativeWords us := by
  unfold informativeWords
  rw [List.filter_append, List.map_append]

/-- C5: the frequency table maps each case-folded token to its number of
occurrences among the informative tokens of all sentences of the whole
document (the global count equals the sum of per-sentence counts), and an
empty document yields the empty table. -/
theorem word_freq_spec (doc : Document) (w : String) :
    word_freq doc w = (doc.map (fun s => (informativeWords s.tokens).count w)).sum ∧
    word_freq ([] : Document) w = 0 := by
  constructor
  · unfold word_freq
    induction doc with
    | nil => simp [docTokens, informativeWords]
    | cons s rest ih =>
        have hd : docTokens (s :: rest) = s.tokens ++ docTokens rest := by
          simp [docTokens]
        rw [hd, informativeWords_append, List.count_append, List.map_cons,
          List.sum_cons, ih]
  · simp [word_freq, docTokens, informativeWords]

/-- Filtering then mapping the frequency sum equals summing a per-token
contribution that is 0 on stopwords and punctuation. -/
theorem sum_informative_eq_sum_ite (doc : Document) (ts : List Token) :
    ((informativeWords ts).map (fun w => word_freq doc w)).sum =
    (ts.map (fun t =>
      if !t.is_stop && !t.is_punct then word_freq doc (lowerString t.text) else 0)).sum := by
  induction ts with
  | nil => rfl
  | cons t rest ih =>
      by_cases h : (!t.is_stop && !t.is_punct) = true
      · simp only [informativeWords, List.filter_cons, h] at ih ⊢
        simp only [if_true, List.map_cons, List.sum_cons, ih, if_pos h]
      · simp only [informativeWords, List.filter_cons, h] at ih ⊢
        simp only [if_false, List.map_cons, List.sum_cons, ih, Bool.false_eq_true,
          Nat.zero_add]
        simp [h]

/-- C6: each sentence's score is the sum of the table's counts over the
sentence's informative case-folded tokens (each non-informative token
contributing 0), a sentence of only stopwords/punctuation scores 0, and a
token absent from the table contributes count 0. -/
theorem sentScore_spec (doc : Document) (s : Sentence) :
    sentScore doc s = specSentenceScore doc s ∧
    (informativeWords s.tokens = [] → sentScore doc s = 0) ∧
    (∀ w : String, w ∉ informativeWords (docTokens doc) → word_freq doc w = 0) := by
  refine ⟨sum_informative_eq_sum_ite doc s.tokens, ?_, ?_⟩
  · intro h
    unfold sentScore
    rw [h]
    rfl
  · intro w hw
    unfold word_freq
    exact List.count_eq_zero.mpr hw

/-- Witness for `sentScore_spec`: a sentence consisting of one stopword
scores 0, and a word absent from `doc2` has count 0. -/
theorem sentScore_spec_witness :
    sentScore doc2 ⟨"the", [⟨"the", true, false⟩]⟩ =
      specSentenceScore doc2 ⟨"the", [⟨"the", true, false⟩]⟩ ∧
    (informativeWords [⟨"the", true, false⟩] = []) ∧
    sentScore doc2 ⟨"the", [⟨"the", true, false⟩]⟩ = 0 ∧
    ("z" ∉ informativeWords (docTokens doc2)) ∧
    word_freq doc2 "z" = 0 :=
  ⟨(sentScore_spec doc2 ⟨"the", [⟨"the", true, false⟩]⟩).1, by decide,
   (sentScore_spec doc2 ⟨"the", [⟨"the", true, false⟩]⟩).2.1 (by decide), by decide,
   (sentScore_spec doc2 ⟨"the", [⟨"the", true, false⟩]⟩).2.2 "z" (by decide)⟩

/-- Summing `min` of the two counts over the distinct reference n-grams
(what the library computes) equals summing it over the distinct n-grams of
both sides (what the spec states): n-grams absent from the reference
contribute `min 0 _ = 0`. -/
theorem overlap_eq_spec (target candidate : List (List String)) :
    (target.dedup.map (fun g => min (target.count g) (candidate.count g))).sum =
      specOverlapCount target candidate := by
  have hdt : ∀ (l : List (List String)), l.dedup.toFinset = l.toFinset := by
    intro l
    ext a
    simp [List.mem_toFinset, List.mem_dedup]
  unfold specOverlapCount
  rw [← List.sum_toFinset _ (List.nodup_dedup target),
    ← List.sum_toFinset _ (List.nodup_dedup (target ++ candidate)),
    hdt, hdt, List.toFinset_append]
  apply Finset.sum_subset (Finset.subset_union_left)
  intro g _ hg
  have : target.count g = 0 := List.count_eq_zero.mpr (by
    intro hmem
    exact hg (List.mem_toFinset.mpr hmem))
  rw [this]
  exact Nat.zero_min _

/-- Fields of the n-gram score, in the spec's formulation: precision and
recall are the spec overlap count divided by the candidate/reference n-gram
totals (0 for an empty side), and F is `2PR/(P+R)`, 0 when `P + R = 0`. -/
theorem scoreNgrams_fields (target candidate : List (List String)) :
    (scoreNgrams target candidate).precision =
      (if candidate.length = 0 then 0
       else (specOverlapCount target candidate : ℚ) / candidate.length) ∧
    (scoreNgrams target candidate).recallScore =
      (if target.length = 0 then 0
       else (specOverlapCount target candidate : ℚ) / target.length) ∧
    (scoreNgrams target candidate).fmeasure =
      (if (scoreNgrams target candidate).precision +
            (scoreNgrams target candidate).recallScore = 0 then 0
       else 2 * (scoreNgrams target candidate).precision *
              (scoreNgrams target candidate).recallScore /
            ((scoreNgrams target candidate).precision +
             (scoreNgrams target candidate).recallScore)) := by
  have hov := overlap_eq_spec target candidate
  refine ⟨?_, ?_, ?_⟩
  · by_cases hc : candidate.length = 0
    · have hce : candidate = [] := List.length_eq_zero.mp hc
      subst hce
      simp [scoreNgrams, List.count_nil]
    · simp only [scoreNgrams, hov, if_neg hc]
      rw [Nat.max_eq_left (by omega)]
  · by_cases ht : target.length = 0
    · have hte : target = [] := List.length_eq_zero.mp ht
      subst hte
      simp [scoreNgrams, specOverlapCount]
    · simp only [scoreNgrams, hov, if_neg ht]
      rw [Nat.max_eq_left (by omega)]
  · simp only [scoreNgrams, fmeasureOf]
    have hp : (0 : ℚ) ≤ (((target.dedup.map
        (fun g => min (target.count g) (candidate.count g))).sum : ℚ) /
        (max candidate.length 1 : Nat)) := by positivity
    have hr : (0 : ℚ) ≤ (((target.dedup.map
        (fun g => min (target.count g) (candidate.count g))).sum : ℚ) /
        (max target.length 1 : Nat)) := by positivity
    by_cases hz : (((target.dedup.map
        (fun g => min (target.count g) (candidate.count g))).sum : ℚ) /
        (max candidate.length 1 : Nat)) +
        (((target.dedup.map
        (fun g => min (target.count g) (candidate.count g))).sum : ℚ) /
        (max target.length 1 : Nat)) = 0
    · rw [if_pos hz, if_neg (by rw [hz]; exact lt_irrefl 0)]
    · rw [if_neg hz, if_pos (lt_of_le_of_ne (by positivity) (Ne.symm hz))]

/-- C2: for every reference and candidate token sequence and every n-gram
order `n` (unigrams `n = 1`, bigrams `n = 2`), the overlap count is the sum
over distinct n-grams of `min(count in reference, count in candidate)`,
precision is the overlap over the candidate n-gram total (0 when the
candidate has no n-grams), recall is the overlap over the reference n-gram
total (0 when the reference has none), and F is `2PR/(P+R)`, 0 when
`P + R = 0`; all values are total rationals, never an exception or NaN. -/
theorem rouge_ngram_spec (ref cand : List String) (n : Nat) :
    (scoreNgrams (ngrams n ref) (ngrams n cand)).precision =
      (if (ngrams n cand).length = 0 then 0
       else (specOverlapCount (ngrams n ref) (ngrams n cand) : ℚ) /
         (ngrams n cand).length) ∧
    (scoreNgrams (ngrams n ref) (ngrams n cand)).recallScore =
      (if (ngrams n ref).length = 0 then 0
       else (specOverlapCount (ngrams n ref) (ngrams n cand) : ℚ) /
         (ngrams n ref).length) ∧
    (scoreNgrams (ngrams n ref) (ngrams n cand)).fmeasure =
      (if (scoreNgrams (ngrams n ref) (ngrams n cand)).precision +
            (scoreNgrams (ngrams n ref) (ngrams n cand)).recallScore = 0 then 0
       else 2 * (scoreNgrams (ngrams n ref) (ngrams n cand)).precision *
              (scoreNgrams (ngrams n ref) (ngrams n cand)).recallScore /
            ((scoreNgrams (ngrams n ref) (ngrams n cand)).precision +
             (scoreNgrams (ngrams n ref) (ngrams n cand)).recallScore)) :=
  scoreNgrams_fields (ngrams n ref) (ngrams n cand)

/-- Number of n-grams of a token sequence. -/
theorem ngrams_length (n : Nat) (l : List String) :
    (ngrams n l).length = l.length + 1 - n := by
  simp [ngrams]

/-- Counting with the derived boolean equality agrees with counting with
the decidable-equality instance. -/
theorem count_eq_count (g : List String) (l : List (List String)) :
    l.count g = @List.count (List String) instBEqOfDecidableEq g l := by
  induction l with
  | nil => rfl
  | cons a as ih =>
      simp only [List.count_cons, ih]
      by_cases h : a = g <;> simp [h]

/-- Scoring a non-empty n-gram list against itself gives the perfect
score. -/
theorem scoreNgrams_self (l : List (List String)) (h : l ≠ []) :
    scoreNgrams l l = ⟨1, 1, 1⟩ := by
  have hlen : 0 < l.length := List.length_pos.mpr h
  have hov : (l.dedup.map (fun g => min (l.count g) (l.count g))).sum = l.length := by
    simp only [min_self, count_eq_count]
    exact List.sum_map_count_dedup_eq_length l
  have hq : ((l.length : ℚ)) ≠ 0 := by
    exact_mod_cast Nat.pos_iff_ne_zero.mp hlen
  simp only [scoreNgrams, hov, Nat.max_eq_left (by omega : 1 ≤ l.length)]
  rw [div_self hq]
  have hf : fmeasureOf 1 1 = 1 := by
    unfold fmeasureOf
    norm_num
  rw [hf]

/-- The LCS of a sequence with itself is the whole sequence. -/
theorem lcsLen_self (l : List String) : lcsLen l l = l.length := by
  induction l with
  | nil => simp [lcsLen]
  | cons a as ih =>
      simp [lcsLen, ih]
      omega

/-- LCS-scoring a non-empty token sequence against itself gives the perfect
score. -/
theorem scoreLcs_self (l : List String) (h : l ≠ []) :
    scoreLcs l l = ⟨1, 1, 1⟩ := by
  have hlen : 0 < l.length := List.length_pos.mpr h
  have hq : ((l.length : ℚ)) ≠ 0 := by
    exact_mod_cast Nat.pos_iff_ne_zero.mp hlen
  simp only [scoreLcs, lcsLen_self, Nat.max_eq_left (by omega : 1 ≤ l.length)]
  rw [div_self hq]
  have hf : fmeasureOf 1 1 = 1 := by
    unfold fmeasureOf
    norm_num
  rw [hf]

/-- C7 counterexample: for the single-token sequence `["a"]` used as both
reference and candidate, the bigram variant yields F-measure 0, not 1.0
(the sequence has no bigrams). -/
theorem self_score_counterexample :
    (scoreNgrams (ngrams 2 ["a"]) (ngrams 2 ["a"])).fmeasure ≠ 1 := by
  have h : (scoreNgrams (ngrams 2 ["a"]) (ngrams 2 ["a"])).fmeasure = 0 := by
    simp [scoreNgrams, ngrams, fmeasureOf]
  rw [h]
  norm_num

/-- C7 (amended): for every NON-EMPTY token sequence `x` used as both
reference and candidate, the unigram and LCS variants yield
precision = recall = F = 1.0, and the bigram variant does so whenever `x`
has at least 2 tokens; degenerate cases (empty `x`, or a single token for
bigrams) yield 0, not 1. -/
theorem self_score_perfect (x : List String) (hx : x ≠ []) :
    scoreNgrams (ngrams 1 x) (ngrams 1 x) = ⟨1, 1, 1⟩ ∧
    scoreLcs x x = ⟨1, 1, 1⟩ ∧
    (2 ≤ x.length → scoreNgrams (ngrams 2 x) (ngrams 2 x) = ⟨1, 1, 1⟩) := by
  have hlen : 0 < x.length := List.length_pos.mpr hx
  refine ⟨?_, scoreLcs_self x hx, ?_⟩
  · apply scoreNgrams_self
    intro hcon
    have hg := congrArg List.length hcon
    rw [ngrams_length] at hg
    simp only [List.length_nil] at hg
    omega
  · intro h2
    apply scoreNgrams_self
    intro hcon
    have hg := congrArg List.length hcon
    rw [ngrams_length] at hg
    simp only [List.length_nil] at hg
    omega

/-- Witness for `self_score_perfect` at the two-token sequence
`["a", "b"]`. -/
theorem self_score_perfect_witness :
    ((["a", "b"] : List String) ≠ []) ∧ 2 ≤ (["a", "b"] : List String).length ∧
    scoreNgrams (ngrams 1 ["a", "b"]) (ngrams 1 ["a", "b"]) = ⟨1, 1, 1⟩ ∧
    scoreLcs ["a", "b"] ["a", "b"] = ⟨1, 1, 1⟩ ∧
    scoreNgrams (ngrams 2 ["a", "b"]) (ngrams 2 ["a", "b"]) = ⟨1, 1, 1⟩ :=
  ⟨by decide, by decide, (self_score_perfect ["a", "b"] (by decide)).1,
   (self_score_perfect ["a", "b"] (by decide)).2.1,
   (self_score_perfect ["a", "b"] (by decide)).2.2 (by decide)⟩

/-- Keep-first deduplication only removes elements (a sublist remains). -/
theorem dedupKeepFirst_sublist {α β : Type} [DecidableEq β] (key : α → β) :
    ∀ (seen : List β) (l : List α), (dedupKeepFirst key seen l).Sublist l := by
  intro seen l
  induction l generalizing seen with
  | nil => simp [dedupKeepFirst]
  | cons r rs ih =>
      unfold dedupKeepFirst
      by_cases h : key r ∈ seen
      · rw [if_pos h]
        exact (ih seen).trans (List.sublist_cons_self r rs)
      · rw [if_neg h]
        exact (ih (key r :: seen)).cons₂ r

/-- Keep-first deduplication never returns an element whose key was already
seen. -/
theorem dedupKeepFirst_not_seen {α β : Type} [DecidableEq β] (key : α → β) :
    ∀ (seen : List β) (l : List α) (x : α),
      x ∈ dedupKeepFirst key seen l → key x ∉ seen := by
  intro seen l
  induction l generalizing seen with
  | nil => simp [dedupKeepFirst]
  | cons r rs ih =>
      intro x hx
      unfold dedupKeepFirst at hx
      by_cases h : key r ∈ seen
      · rw [if_pos h] at hx
        exact ih seen x hx
      · rw [if_neg h] at hx
        rcases List.mem_cons.mp hx with h1 | h1
        · subst h1
          exact h
        · have := ih (key r :: seen) x h1
          intro hc
          exact this (List.mem_cons_of_mem _ hc)

/-- Keys in the keep-first deduplicated list are pairwise distinct. -/
theorem dedupKeepFirst_nodup_keys {α β : Type} [DecidableEq β] (key : α → β) :
    ∀ (seen : List β) (l : List α), ((dedupKeepFirst key seen l).map key).Nodup := by
  intro seen l
  induction l generalizing seen with
  | nil => simp [dedupKeepFirst]
  | cons r rs ih =>
      unfold dedupKeepFirst
      by_cases h : key r ∈ seen
      · rw [if_pos h]
        exact ih seen
      · rw [if_neg h]
        rw [List.map_cons, List.nodup_cons]
        refine ⟨?_, ih (key r :: seen)⟩
        intro hc
        rcases List.mem_map.mp hc with ⟨y, hy, hk⟩
        have := dedupKeepFirst_not_seen key (key r :: seen) rs y hy
        exact this (hk ▸ List.mem_cons_self _ _)

/-- Every key of the input that is not yet seen survives keep-first
deduplication. -/
theorem dedupKeepFirst_covers {α β : Type} [DecidableEq β] (key : α → β) :
    ∀ (seen : List β) (l : List α) (x : α),
      x ∈ l → key x ∉ seen → key x ∈ (dedupKeepFirst key seen l).map key := by
  intro seen l
  induction l generalizing seen with
  | nil => simp
  | cons r rs ih =>
      intro x hx hns
      unfold dedupKeepFirst
      by_cases h : key r ∈ seen
      · rw [if_pos h]
        rcases List.mem_cons.mp hx with h1 | h1
        · subst h1
          exact absurd h hns
        · exact ih seen x h1 hns
      · rw [if_neg h]
        rw [List.map_cons]
        by_cases hk : key x = key r
        · exact hk ▸ List.mem_cons_self _ _
        · rcases List.mem_cons.mp hx with h1 | h1
          · subst h1
            exact absurd rfl hk
          · exact List.mem_cons_of_mem _
              (ih (key r :: seen) x h1 (by
                intro hc
                rcases List.mem_cons.mp hc with h2 | h2
                · exact hk h2
                · exact hns h2))

/-- Every element kept by keep-first deduplication is the FIRST element of
the input with its key. -/
theorem dedupKeepFirst_head {α β : Type} [DecidableEq β] (key : α → β) :
    ∀ (seen : List β) (l : List α) (x : α),
      x ∈ dedupKeepFirst key seen l →
      (l.filter (fun y => decide (key y = key x))).head? = some x := by
  intro seen l
  induction l generalizing seen with
  | nil => simp [dedupKeepFirst]
  | cons r rs ih =>
      intro x hx
      unfold dedupKeepFirst at hx
      by_cases h : key r ∈ seen
      · rw [if_pos h] at hx
        have hne : key x ≠ key r := by
          intro hc
          exact dedupKeepFirst_not_seen key seen rs x hx (hc ▸ h)
        rw [List.filter_cons, if_neg (by simp [Ne.symm hne])]
        exact ih seen x hx
      · rw [if_neg h] at hx
        rcases List.mem_cons.mp hx with h1 | h1
        · subst h1
          rw [List.filter_cons, if_pos (by simp)]
          rfl
        · have hne : key x ≠ key r := by
            intro hc
            exact dedupKeepFirst_not_seen key (key r :: seen) rs x h1
              (hc ▸ List.mem_cons_self _ _)
          rw [List.filter_cons, if_neg (by simp [Ne.symm hne])]
          exact ih (key r :: seen) x h1

/-- Stripping preserves presence of the two text fields. -/
theorem hasFields_trimRow (r : Row) : hasFields (trimRow r) = hasFields r := by
  unfold hasFields trimRow
  cases r.article <;> cases r.highlights <;> rfl

/-- C8: `preprocess_df` keeps only rows whose article and highlights are
present and non-empty after stripping; it keeps no two rows with the same
stripped `(article, highlights)` pair; every valid stripped row's pair is
represented; each kept row is the first valid row with its pair; and the
kept rows appear in their original relative order (a sublist of the
stripped input). -/
theorem preprocess_df_spec (rows : List Row) :
    (preprocess_df rows).Sublist (rows.map trimRow) ∧
    (∀ r ∈ preprocess_df rows, hasFields r = true ∧ nonEmptyRow r = true) ∧
    ((preprocess_df rows).map rowKey).Nodup ∧
    (∀ r ∈ validRows rows, rowKey r ∈ (preprocess_df rows).map rowKey) ∧
    (∀ x ∈ preprocess_df rows,
      ((validRows rows).filter (fun y => decide (rowKey y = rowKey x))).head? = some x) := by
  have hsub1 : (preprocess_df rows).Sublist (validRows rows) :=
    dedupKeepFirst_sublist rowKey [] (validRows rows)
  have hsub2 : (validRows rows).Sublist (rows.map trimRow) := by
    unfold validRows
    exact (List.filter_sublist _).trans ((List.filter_sublist rows).map trimRow)
  refine ⟨hsub1.trans hsub2, ?_, dedupKeepFirst_nodup_keys rowKey [] _, ?_, ?_⟩
  · intro r hr
    have hv : r ∈ validRows rows := hsub1.subset hr
    unfold validRows at hv
    rcases List.mem_filter.mp hv with ⟨hmem, hne⟩
    rcases List.mem_map.mp hmem with ⟨y, hy, hyr⟩
    rcases List.mem_filter.mp hy with ⟨_, hhf⟩
    refine ⟨?_, hne⟩
    rw [← hyr, hasFields_trimRow]
    exact hhf
  · intro r hr
    exact dedupKeepFirst_covers rowKey [] (validRows rows) r hr (by simp)
  · intro x hx
    exact dedupKeepFirst_head rowKey [] (validRows rows) x hx

/-- Witness for `preprocess_df_spec` on the concrete table `rows5`: the
stripped first row's pair is kept, and the kept row with that pair is the
first valid occurrence. -/
theorem preprocess_df_spec_witness :
    (trimRow row0 ∈ validRows rows5) ∧
    rowKey (trimRow row0) ∈ (preprocess_df rows5).map rowKey ∧
    (trimRow row0 ∈ preprocess_df rows5) ∧
    ((validRows rows5).filter
      (fun y => decide (rowKey y = rowKey (trimRow row0)))).head? = some (trimRow row0) :=
  ⟨by decide, (preprocess_df_spec rows5).2.2.2.1 (trimRow row0) (by decide), by decide,
   (preprocess_df_spec rows5).2.2.2.2 (trimRow row0) (by decide)⟩

end Summarize
